import Mathlib

/-!
Shallow embedding of `jsternberg/depcheck` (`src/main.go`).

The program compares two dep lock files (`Gopkg.lock` documents) and reports
or fixes revision mismatches.  The embedding below translates the data model
(`Project`, `LockFile`), the differ (`diffProjectDeps`), the fix callback of
`main`, the atomic file writer (`writeTomlFile`, over an explicit file-system
state), and the `goto DIFF` control loop of `main`.

Go map iteration (`for name, arev := range adeps`) visits each key exactly
once in an unspecified order.  The embedding therefore parameterises the
differ by an iteration order `o : List String`; `IsIterOrder` states that
`o` enumerates the keys of the map built from the local document, which is
exactly what a Go map range guarantees.
-/

set_option autoImplicit false

namespace Depcheck

/-- `type Project struct` from `src/main.go` (branch/version may be absent in
the TOML; they decode to the empty string in Go, so plain `String` is used). -/
structure Project where
  branch : String
  name : String
  packages : List String
  revision : String
  version : String
deriving Repr, DecidableEq

/-- `type LockFile struct` from `src/main.go`.  The `SolveMeta` block is never
read by the diff logic; it is carried as its fields. -/
structure SolveMeta where
  analyzerName : String
  analyzerVersion : Int
  inputsDigest : String
  solverName : String
  solverVersion : Int
deriving Repr, DecidableEq

structure LockFile where
  projects : List Project
  solveMeta : SolveMeta
deriving Repr, DecidableEq

/-- The name-to-revision map built by the loops
`for _, proj := range a.Projects { adeps[proj.Name] = proj.Revision }`:
assignments happen in document order, so a later entry with the same name
overwrites an earlier one. -/
def depsMap (ps : List Project) : String → Option String :=
  ps.foldl (fun m proj => fun n => if n = proj.name then some proj.revision else m n)
    (fun _ => none)

/-- The search loop
`for _, proj := range a.Projects { if proj.Name == name { aproj = proj; break } }`:
the first entry bearing the name. -/
def findProj (ps : List Project) (n : String) : Option Project :=
  ps.find? (fun proj => proj.name == n)

/-- The mismatch test of the range body: the name is present in both maps and
the two mapped revisions differ. -/
def isMismatch (a b : LockFile) (n : String) : Bool :=
  match depsMap a.projects n, depsMap b.projects n with
  | some arev, some brev => decide (arev ≠ brev)
  | _, _ => false

/-- A valid iteration order of the Go map `adeps` built from `a`: each key of
the map exactly once, in an arbitrary order. -/
def IsIterOrder (a : LockFile) (o : List String) : Prop :=
  o.Nodup ∧ (∀ n ∈ o, n ∈ a.projects.map Project.name) ∧
    (∀ n ∈ a.projects.map Project.name, n ∈ o)

instance (a : LockFile) (o : List String) : Decidable (IsIterOrder a o) := by
  unfold IsIterOrder; infer_instance

/-- The type of `ondiff` callbacks.  A Go callback receives pointers into the
two documents and may mutate reachable state; here it receives the two found
entries (`nil` pointer = `none`), the current list of local entries (the
target of in-place mutation through the first pointer) and an arbitrary
threaded state, and returns the updated local entries and state. -/
def Callback (σ : Type) : Type :=
  String → Option Project → Option Project → List Project → σ → List Project × σ

/-- The body of the range loop of `diffProjectDeps`: skip names absent from
either map, skip equal revisions, otherwise invoke the callback (when
supplied) on the first matching entries and increment the counter.  The
accumulator is `(numDifferences, current local entries, callback state)`. -/
def diffStep {σ : Type} (adeps bdeps : String → Option String) (bprojects : List Project)
    (ondiff : Option (Callback σ)) (acc : Nat × List Project × σ) (name : String) :
    Nat × List Project × σ :=
  match adeps name with
  | none => acc
  | some arev =>
    match bdeps name with
    | none => acc
    | some brev =>
      if arev = brev then acc
      else
        match ondiff with
        | none => (acc.1 + 1, acc.2.1, acc.2.2)
        | some f =>
          let r := f name (findProj acc.2.1 name) (findProj bprojects name) acc.2.1 acc.2.2
          (acc.1 + 1, r.1, r.2)

/-- `diffProjectDeps` from `src/main.go`, with the Go map range modelled as a
fold over the iteration order `o`.  The two maps are built up front from the
unmodified documents; inside the loop the first matching local entry is looked
up in the current (possibly callback-mutated) entry list, the first matching
reference entry in `b`.  The `none` arm of `adeps name` is unreachable for a
valid iteration order.  Returns the mismatch count together with the final
local entries and callback state. -/
def runDiff {σ : Type} (a b : LockFile) (o : List String)
    (ondiff : Option (Callback σ)) (s : σ) : Nat × List Project × σ :=
  o.foldl (diffStep (depsMap a.projects) (depsMap b.projects) b.projects ondiff)
    (0, a.projects, s)

/-- The return value of `diffProjectDeps(a, b, nil)`. -/
def diffProjectDeps (a b : LockFile) (o : List String) : Nat :=
  (runDiff (σ := Unit) a b o none ()).1

/-- The mismatching names, in iteration order. -/
def mismatchNames (a b : LockFile) (o : List String) : List String :=
  o.filter (fun n => isMismatch a b n)

/-- A callback that only records its arguments, used to observe the sequence
of callback invocations. -/
def recordCb : Callback (List (String × Option Project × Option Project)) :=
  fun n aproj bproj ps s => (ps, s ++ [(n, aproj, bproj)])

/-- The sequence of `(name, aproj, bproj)` argument triples with which
`diffProjectDeps` invokes its callback. -/
def invocationLog (a b : LockFile) (o : List String) :
    List (String × Option Project × Option Project) :=
  (runDiff a b o (some recordCb) []).2.2

/-- The revision read through a pointer, `p.Revision`.  In Go a `nil` pointer
here would crash; the `none` arm is unreachable whenever the callback runs on
a mismatch (see `findProj_isSome_left`). -/
def revStr : Option Project → String
  | some p => p.revision
  | none => ""

/-- `myProj.Revision = theirProj.Revision` of the fix branch of the callback
in `main`: overwrite the revision of the first entry bearing the name (the
entry `aproj` points at). -/
def setFirstRevision (ps : List Project) (n r : String) : List Project :=
  match ps with
  | [] => []
  | p :: rest =>
    if p.name == n then { p with revision := r } :: rest
    else p :: setFirstRevision rest n r

/-- The callback of `main` when `*fix` is true: mutate the local entry, print
nothing. -/
def fixCb : Callback Unit :=
  fun n _ bproj ps s =>
    (match bproj with
     | some theirProj => setFirstRevision ps n theirProj.revision
     | none => ps, s)

/-- The callback of `main` when `*fix` is false: lazily print the two header
lines once, then one `- name rev` / `+ name rev` pair per mismatch.  The state
is `(headerPrinted, lines printed so far)`. -/
def reportCb (localPath projName : String) : Callback (Bool × List String) :=
  fun n myProj theirProj ps s =>
    let out := if s.1 then s.2 else s.2 ++ ["--- " ++ localPath, "+++ " ++ projName]
    (ps, (true, out ++ ["- " ++ n ++ " " ++ revStr myProj, "+ " ++ n ++ " " ++ revStr theirProj]))

/-- The lines printed to standard output by one report-mode diff pass of
`main` (initial state: header not printed, nothing emitted). -/
def reportOutput (a b : LockFile) (o : List String) (localPath projName : String) :
    List String :=
  ((runDiff a b o (some (reportCb localPath projName)) (false, [])).2.2).2

/-- The local document after one fix-mode diff pass of `main`: the entry list
threaded through `fixCb`.  Metadata is untouched (Go mutates only the
`Revision` fields in place). -/
def fixPass (a b : LockFile) (o : List String) : LockFile :=
  { a with projects := (runDiff a b o (some fixCb) ()).2.1 }

/-! ### File-system model for `writeTomlFile`

A file system is a map from paths to optional contents.  `writeTomlFile`
works at two paths, `fpath` and `fpath ++ ".new"`; failures of the three
fallible steps before the rename (`os.Create`, `enc.Encode`, `f.Close`) and
of the rename itself are injected through explicit flags. -/

/-- Which steps of `writeTomlFile` fail. -/
structure WriteFailures where
  createFails : Bool
  encodeFails : Bool
  closeFails : Bool
  renameFails : Bool
deriving Repr, DecidableEq

/-- The generated-file warning written before the TOML body. -/
def tomlHeader : String :=
  "# This file is autogenerated, do not edit; changes may be undone by the next \x27dep ensure\x27.\n\n"

/-- `writeTomlFile` from `src/main.go` over the file-system model.  `body` is
the output of the TOML encoder for the data (the encoder is an external
collaborator).  Returns `(error, new file system)`.

Trace of the Go function: create `fpath + ".new"` (on failure: return before
the deferred remove/close are registered, file system unchanged); write the
warning header (the `fmt.Fprint` error is ignored by the Go code); encode the
body (on failure: the deferred `os.Remove` deletes the temp file); close (on
failure: likewise); rename the temp file over `fpath` (on failure: likewise);
on success the deferred remove of the already-renamed temp path is a no-op. -/
def writeTomlFile (fs : String → Option String) (fpath body : String)
    (fl : WriteFailures) : Option String × (String → Option String) :=
  let tmp := fpath ++ ".new"
  if fl.createFails then (some "create", fs)
  else
    let fs1 := fun p => if p = tmp then some (tomlHeader ++ "") else fs p
    if fl.encodeFails then (some "encode", fun p => if p = tmp then none else fs1 p)
    else
      let fs2 := fun p => if p = tmp then some (tomlHeader ++ body) else fs p
      if fl.closeFails then (some "close", fun p => if p = tmp then none else fs2 p)
      else if fl.renameFails then (some "rename", fun p => if p = tmp then none else fs2 p)
      else (none, fun p => if p = fpath then some (tomlHeader ++ body)
                           else if p = tmp then none else fs p)

/-! ### Driver model for `main` (from the `DIFF` label on)

`main` reads the local `Gopkg.lock`, diffs it against the reference lock
file, and on mismatches either reports and exits 1, or (in fix mode)
persists the mutated document, runs `dep ensure`, clears the fix flag and
jumps back to `DIFF`.  The environment supplies, per diff cycle `k`, the
parsed local document (`none` = read error) and the map iteration order, plus
the success of the persist step and of the `dep ensure` subprocess. -/

structure DriverEnv where
  readLocal : Nat → Option LockFile
  refLock : LockFile
  orders : Nat → List String
  persistOk : Bool
  ensureOk : Bool
  localPathLabel : String
  projName : String

/-- Observable outcome of one invocation of the driver. -/
structure DriverRun where
  exitCode : Nat
  output : List String
  diffCycles : Nat
  persistCalls : Nat
  ensureCalls : Nat
deriving Repr, DecidableEq

def initRun : DriverRun := ⟨0, [], 0, 0, 0⟩

/-- The `goto DIFF` loop of `main`.  `fuel` bounds the number of iterations
so that the recursion is total; `none` means the fuel ran out before the
program exited.  The single Go callback branches on `*fix`, which is constant
during one diff pass, so each pass uses `fixCb` or `reportCb` according to
the current flag.  After a successful persist and `dep ensure`, the code sets
`*fix = false` and jumps back. -/
def driverLoop (env : DriverEnv) : Nat → Bool → Nat → DriverRun → Option DriverRun
  | 0, _, _, _ => none
  | fuel + 1, fix, k, acc =>
    match env.readLocal k with
    | none => some { acc with exitCode := 1 }
    | some myLock =>
      if fix then
        let r := runDiff myLock env.refLock (env.orders k) (some fixCb) ()
        let acc1 := { acc with diffCycles := acc.diffCycles + 1 }
        if r.1 > 0 then
          let acc2 := { acc1 with persistCalls := acc1.persistCalls + 1 }
          if env.persistOk then
            let acc3 := { acc2 with ensureCalls := acc2.ensureCalls + 1 }
            if env.ensureOk then driverLoop env fuel false (k + 1) acc3
            else some { acc3 with exitCode := 1 }
          else some { acc2 with exitCode := 1 }
        else some { acc1 with exitCode := 0 }
      else
        let r := runDiff myLock env.refLock (env.orders k)
          (some (reportCb env.localPathLabel env.projName)) (false, [])
        let acc1 := { acc with diffCycles := acc.diffCycles + 1,
                               output := acc.output ++ r.2.2.2 }
        if r.1 > 0 then some { acc1 with exitCode := 1 }
        else some { acc1 with exitCode := 0 }

/-- One invocation of the driver with initial fix flag `fix0`.  Fuel 2
reflects that the loop body can repeat at most once. -/
def runMain (env : DriverEnv) (fix0 : Bool) : Option DriverRun :=
  driverLoop env 2 fix0 0 initRun

/-! ### Basic lemmas about the name-to-revision map and the entry search -/

lemma depsMap_go (ps : List Project) (m : String → Option String) (n : String) :
    List.foldl (fun m proj => fun n => if n = proj.name then some proj.revision else m n) m ps n
      = match depsMap ps n with
        | some r => some r
        | none => m n := by
  induction ps generalizing m with
  | nil => simp [depsMap]
  | cons p ps ih =>
    have h1 : depsMap (p :: ps) n = match depsMap ps n with
        | some r => some r
        | none => if n = p.name then some p.revision else none := by
      simpa [depsMap, List.foldl_cons] using
        ih (fun n => if n = p.name then some p.revision else none)
    rw [List.foldl_cons, ih, h1]
    cases h : depsMap ps n <;> by_cases hn : n = p.name <;> simp [hn]

lemma depsMap_cons (p : Project) (ps : List Project) (n : String) :
    depsMap (p :: ps) n = match depsMap ps n with
      | some r => some r
      | none => if n = p.name then some p.revision else none := by
  simpa [depsMap, List.foldl_cons] using
    depsMap_go ps (fun n => if n = p.name then some p.revision else none) n

lemma depsMap_nil (n : String) : depsMap [] n = none := rfl

lemma depsMap_eq_none_iff (ps : List Project) (n : String) :
    depsMap ps n = none ↔ n ∉ ps.map Project.name := by
  induction ps with
  | nil => simp [depsMap_nil]
  | cons p ps ih =>
    rw [depsMap_cons]
    cases h : depsMap ps n with
    | some r =>
      have hmem : n ∈ ps.map Project.name := by
        by_contra hc
        rw [ih.mpr hc] at h
        exact Option.noConfusion h
      simp [hmem]
    | none =>
      have hmem : n ∉ ps.map Project.name := ih.mp h
      by_cases hn : n = p.name <;> simp [hn, hmem]

lemma depsMap_isSome_iff (ps : List Project) (n : String) :
    (depsMap ps n).isSome = true ↔ n ∈ ps.map Project.name := by
  have h := depsMap_eq_none_iff ps n
  rw [Option.isSome_iff_ne_none]
  tauto

lemma findProj_isSome_iff (ps : List Project) (n : String) :
    (findProj ps n).isSome = true ↔ n ∈ ps.map Project.name := by
  rw [findProj, List.find?_isSome]
  simp

lemma findProj_name {ps : List Project} {n : String} {p : Project}
    (h : findProj ps n = some p) : p.name = n := by
  have := List.find?_some h
  simpa using this

lemma getLast?_cons_ne {α : Type} (a : α) (l : List α) (h : l ≠ []) :
    (a :: l).getLast? = l.getLast? := by
  cases l with
  | nil => exact absurd rfl h
  | cons b t => simp

/-- The comparison key: the map holds the revision of the last entry bearing
the name. -/
lemma depsMap_eq_getLast (ps : List Project) (n : String) :
    depsMap ps n = ((ps.filter (fun p => p.name == n)).getLast?).map Project.revision := by
  induction ps with
  | nil => simp [depsMap_nil]
  | cons p ps ih =>
    rw [depsMap_cons, ih]
    by_cases hn : p.name = n
    · rw [List.filter_cons_of_pos (by simpa using hn)]
      cases h : (ps.filter (fun p => p.name == n)).getLast? with
      | some q =>
        have hne : ps.filter (fun p => p.name == n) ≠ [] := by
          intro hnil; rw [hnil] at h; exact Option.noConfusion h
        rw [getLast?_cons_ne _ _ hne, h]
        simp
      | none =>
        have hnil : ps.filter (fun p => p.name == n) = [] :=
          List.getLast?_eq_none_iff.mp h
        rw [hnil]
        simp [hn]
    · rw [List.filter_cons_of_neg (by simpa using hn)]
      cases h : (ps.filter (fun p => p.name == n)).getLast? with
      | some q => simp
      | none =>
        have hne : ¬ n = p.name := fun hh => hn hh.symm
        simp [hne]

/-- The callback argument: the search returns the first entry bearing the
name. -/
lemma findProj_eq_head (ps : List Project) (n : String) :
    findProj ps n = (ps.filter (fun p => p.name == n)).head? := by
  induction ps with
  | nil => rfl
  | cons p ps ih =>
    by_cases hn : p.name = n
    · rw [findProj, List.find?_cons_of_pos _ (by simpa using hn),
        List.filter_cons_of_pos (by simpa using hn)]
      rfl
    · rw [findProj, List.find?_cons_of_neg _ (by simpa using hn),
        List.filter_cons_of_neg (by simpa using hn), ← findProj, ih]

/-! ### Characterisation of one diff pass as a fold over the mismatching names -/

lemma diffStep_none (a b : LockFile) {σ : Type} (acc : Nat × List Project × σ)
    (n : String) :
    diffStep (depsMap a.projects) (depsMap b.projects) b.projects
        (none : Option (Callback σ)) acc n
      = if isMismatch a b n then (acc.1 + 1, acc.2.1, acc.2.2) else acc := by
  cases ha : depsMap a.projects n with
  | none => simp [diffStep, isMismatch, ha]
  | some arev =>
    cases hb : depsMap b.projects n with
    | none => simp [diffStep, isMismatch, ha, hb]
    | some brev =>
      by_cases he : arev = brev <;> simp [diffStep, isMismatch, ha, hb, he]

lemma diffStep_some (a b : LockFile) {σ : Type} (f : Callback σ)
    (acc : Nat × List Project × σ) (n : String) :
    diffStep (depsMap a.projects) (depsMap b.projects) b.projects (some f) acc n
      = if isMismatch a b n then
          (acc.1 + 1, f n (findProj acc.2.1 n) (findProj b.projects n) acc.2.1 acc.2.2)
        else acc := by
  cases ha : depsMap a.projects n with
  | none => simp [diffStep, isMismatch, ha]
  | some arev =>
    cases hb : depsMap b.projects n with
    | none => simp [diffStep, isMismatch, ha, hb]
    | some brev =>
      by_cases he : arev = brev <;> simp [diffStep, isMismatch, ha, hb, he]

lemma foldl_diffStep_none (a b : LockFile) {σ : Type} (o : List String) :
    ∀ (k : Nat) (ps : List Project) (s : σ),
      o.foldl (diffStep (depsMap a.projects) (depsMap b.projects) b.projects
          (none : Option (Callback σ))) (k, ps, s)
        = (k + (mismatchNames a b o).length, ps, s) := by
  induction o with
  | nil => intro k ps s; simp [mismatchNames]
  | cons n o ih =>
    intro k ps s
    rw [List.foldl_cons, diffStep_none]
    by_cases hm : isMismatch a b n = true
    · rw [if_pos hm]
      rw [show ((k, ps, s) : Nat × List Project × σ).1 + 1 = k + 1 from rfl, ih (k + 1) ps s]
      simp [mismatchNames, List.filter_cons, hm]
      omega
    · rw [if_neg hm, ih k ps s]
      simp [mismatchNames, List.filter_cons, hm]

lemma foldl_diffStep_some (a b : LockFile) {σ : Type} (f : Callback σ) (o : List String) :
    ∀ (k : Nat) (ps : List Project) (s : σ),
      o.foldl (diffStep (depsMap a.projects) (depsMap b.projects) b.projects (some f))
          (k, ps, s)
        = (k + (mismatchNames a b o).length,
           (mismatchNames a b o).foldl
             (fun acc n => f n (findProj acc.1 n) (findProj b.projects n) acc.1 acc.2)
             (ps, s)) := by
  induction o with
  | nil => intro k ps s; simp [mismatchNames]
  | cons n o ih =>
    intro k ps s
    rw [List.foldl_cons, diffStep_some]
    by_cases hm : isMismatch a b n = true
    · rw [if_pos hm]
      rw [ih]
      simp [mismatchNames, List.filter_cons, hm, List.foldl_cons]
      omega
    · rw [if_neg hm, ih k ps s]
      simp [mismatchNames, List.filter_cons, hm]

lemma runDiff_none_eq {σ : Type} (a b : LockFile) (o : List String) (s : σ) :
    runDiff a b o none s = ((mismatchNames a b o).length, a.projects, s) := by
  simpa [runDiff] using foldl_diffStep_none a b o 0 a.projects s

lemma runDiff_some_eq {σ : Type} (a b : LockFile) (o : List String) (f : Callback σ)
    (s : σ) :
    runDiff a b o (some f) s
      = ((mismatchNames a b o).length,
         (mismatchNames a b o).foldl
           (fun acc n => f n (findProj acc.1 n) (findProj b.projects n) acc.1 acc.2)
           (a.projects, s)) := by
  simpa [runDiff] using foldl_diffStep_some a b f o 0 a.projects s

lemma diffProjectDeps_eq (a b : LockFile) (o : List String) :
    diffProjectDeps a b o = (mismatchNames a b o).length := by
  simp [diffProjectDeps, runDiff_none_eq]

lemma runDiff_count {σ : Type} (a b : LockFile) (o : List String)
    (ondiff : Option (Callback σ)) (s : σ) :
    (runDiff a b o ondiff s).1 = diffProjectDeps a b o := by
  cases ondiff with
  | none => rw [runDiff_none_eq, diffProjectDeps_eq]
  | some f => rw [runDiff_some_eq, diffProjectDeps_eq]

/-! ### The three concrete callbacks -/

lemma foldl_recordCb (b : LockFile) (l : List String) :
    ∀ (ps : List Project) (s : List (String × Option Project × Option Project)),
      l.foldl (fun acc n => recordCb n (findProj acc.1 n) (findProj b.projects n) acc.1 acc.2)
          (ps, s)
        = (ps, s ++ l.map (fun n => (n, findProj ps n, findProj b.projects n))) := by
  induction l with
  | nil => intro ps s; simp
  | cons n l ih =>
    intro ps s
    rw [List.foldl_cons]
    show l.foldl _ (ps, s ++ [(n, findProj ps n, findProj b.projects n)]) = _
    rw [ih]
    simp

lemma invocationLog_eq (a b : LockFile) (o : List String) :
    invocationLog a b o
      = (mismatchNames a b o).map
          (fun n => (n, findProj a.projects n, findProj b.projects n)) := by
  simp [invocationLog, runDiff_some_eq, foldl_recordCb]

/-- The two body lines printed for one mismatching name. -/
def pairLines (b : LockFile) (ps : List Project) (l : List String) : List String :=
  l.flatMap (fun n =>
    ["- " ++ n ++ " " ++ revStr (findProj ps n),
     "+ " ++ n ++ " " ++ revStr (findProj b.projects n)])

lemma foldl_reportCb_true (b : LockFile) (lp pn : String) (l : List String) :
    ∀ (ps : List Project) (out : List String),
      l.foldl (fun acc n => reportCb lp pn n (findProj acc.1 n) (findProj b.projects n)
          acc.1 acc.2) (ps, (true, out))
        = (ps, (true, out ++ pairLines b ps l)) := by
  induction l with
  | nil => intro ps out; simp [pairLines]
  | cons n l ih =>
    intro ps out
    rw [List.foldl_cons]
    show l.foldl _ (ps, (true, out ++ ["- " ++ n ++ " " ++ revStr (findProj ps n),
      "+ " ++ n ++ " " ++ revStr (findProj b.projects n)])) = _
    rw [ih]
    simp [pairLines]

lemma foldl_reportCb_false (b : LockFile) (lp pn : String) (l : List String)
    (ps : List Project) (out : List String) :
    l.foldl (fun acc n => reportCb lp pn n (findProj acc.1 n) (findProj b.projects n)
        acc.1 acc.2) (ps, (false, out))
      = if l = [] then (ps, (false, out))
        else (ps, (true, out ++ ["--- " ++ lp, "+++ " ++ pn] ++ pairLines b ps l)) := by
  cases l with
  | nil => simp
  | cons n l =>
    rw [List.foldl_cons]
    show List.foldl _ (ps, (true, (out ++ ["--- " ++ lp, "+++ " ++ pn])
      ++ ["- " ++ n ++ " " ++ revStr (findProj ps n),
          "+ " ++ n ++ " " ++ revStr (findProj b.projects n)])) l = _
    rw [foldl_reportCb_true]
    simp [pairLines]

lemma reportOutput_eq (a b : LockFile) (o : List String) (lp pn : String) :
    reportOutput a b o lp pn
      = if diffProjectDeps a b o = 0 then []
        else ["--- " ++ lp, "+++ " ++ pn] ++ pairLines b a.projects (mismatchNames a b o) := by
  rw [reportOutput, runDiff_some_eq, foldl_reportCb_false]
  by_cases h : mismatchNames a b o = []
  · simp [h, diffProjectDeps_eq]
  · have hd : ¬ diffProjectDeps a b o = 0 := by
      rw [diffProjectDeps_eq]
      simpa [List.length_eq_zero] using h
    simp [h, hd]

/-! ### The fix pass -/

/-- One fix-callback application, seen from the entry list: overwrite the
revision of the first local entry bearing `n` with the revision of the first
reference entry bearing `n`. -/
def fixStep (b : LockFile) (ps : List Project) (n : String) : List Project :=
  match findProj b.projects n with
  | some theirProj => setFirstRevision ps n theirProj.revision
  | none => ps

lemma foldl_fixCb (b : LockFile) (l : List String) :
    ∀ (ps : List Project) (s : Unit),
      l.foldl (fun acc n => fixCb n (findProj acc.1 n) (findProj b.projects n) acc.1 acc.2)
          (ps, s)
        = (l.foldl (fixStep b) ps, ()) := by
  induction l with
  | nil => intro ps s; simp
  | cons n l ih =>
    intro ps s
    rw [List.foldl_cons, List.foldl_cons]
    show l.foldl _ (fixStep b ps n, ()) = _
    exact ih (fixStep b ps n) ()

lemma fixPass_projects (a b : LockFile) (o : List String) :
    (fixPass a b o).projects = (mismatchNames a b o).foldl (fixStep b) a.projects := by
  rw [fixPass, runDiff_some_eq]
  show ((mismatchNames a b o).foldl
    (fun acc n => fixCb n (findProj acc.1 n) (findProj b.projects n) acc.1 acc.2)
    (a.projects, ())).1 = _
  rw [foldl_fixCb]

lemma fixPass_solveMeta (a b : LockFile) (o : List String) :
    (fixPass a b o).solveMeta = a.solveMeta := rfl

lemma setFirstRevision_map_name (ps : List Project) (n r : String) :
    (setFirstRevision ps n r).map Project.name = ps.map Project.name := by
  induction ps with
  | nil => rfl
  | cons p ps ih =>
    by_cases h : (p.name == n) = true <;> simp [setFirstRevision, h, ih]

lemma findProj_setFirstRevision_self (ps : List Project) (n r : String) :
    findProj (setFirstRevision ps n r) n
      = (findProj ps n).map (fun p => { p with revision := r }) := by
  induction ps with
  | nil => rfl
  | cons p ps ih =>
    by_cases h : (p.name == n) = true
    · simp [setFirstRevision, h, findProj, List.find?_cons_of_pos]
    · simp only [setFirstRevision, h, if_false, Bool.false_eq_true]
      rw [findProj, List.find?_cons_of_neg _ (by simpa using h),
        findProj, List.find?_cons_of_neg _ (by simpa using h)]
      exact ih

lemma findProj_setFirstRevision_ne (ps : List Project) {m n : String} (r : String)
    (h : m ≠ n) :
    findProj (setFirstRevision ps n r) m = findProj ps m := by
  induction ps with
  | nil => rfl
  | cons p ps ih =>
    by_cases hp : (p.name == n) = true
    · have hpn : p.name = n := by simpa using hp
      have hpm : (p.name == m) = false := by
        rw [hpn]
        simpa using fun hh : n = m => h hh.symm
      simp [setFirstRevision, hp, findProj, List.find?_cons, hpm]
    · by_cases hm : (p.name == m) = true
      · simp [setFirstRevision, hp, findProj, List.find?_cons, hm]
      · have hm2 : (p.name == m) = false := by simpa using hm
        simp only [setFirstRevision, hp, if_false, Bool.false_eq_true, findProj,
          List.find?_cons, hm2]
        simpa [findProj] using ih

lemma findProj_fixStep_ne (b : LockFile) (ps : List Project) {m n : String}
    (h : m ≠ n) : findProj (fixStep b ps n) m = findProj ps m := by
  rw [fixStep]
  cases findProj b.projects n with
  | none => rfl
  | some q => exact findProj_setFirstRevision_ne ps q.revision h

lemma findProj_foldl_fixStep (b : LockFile) (l : List String) :
    ∀ (ps : List Project) (n : String), l.Nodup →
      findProj (l.foldl (fixStep b) ps) n
        = if n ∈ l then
            match findProj b.projects n with
            | some theirProj =>
                (findProj ps n).map (fun p => { p with revision := theirProj.revision })
            | none => findProj ps n
          else findProj ps n := by
  induction l with
  | nil => intro ps n _; simp
  | cons m l ih =>
    intro ps n hnd
    have hm : m ∉ l := (List.nodup_cons.mp hnd).1
    have hl : l.Nodup := (List.nodup_cons.mp hnd).2
    rw [List.foldl_cons, ih (fixStep b ps m) n hl]
    by_cases hnm : n = m
    · subst hnm
      have : n ∉ l := hm
      rw [if_neg this, if_pos (List.mem_cons_self n l)]
      rw [fixStep]
      cases findProj b.projects n with
      | none => rfl
      | some q => exact findProj_setFirstRevision_self ps n q.revision
    · rw [findProj_fixStep_ne b ps hnm]
      by_cases hin : n ∈ l
      · rw [if_pos hin, if_pos (List.mem_cons_of_mem m hin)]
      · rw [if_neg hin, if_neg (by simp [hnm, hin])]

lemma fixStep_map_name (b : LockFile) (ps : List Project) (n : String) :
    (fixStep b ps n).map Project.name = ps.map Project.name := by
  rw [fixStep]
  cases findProj b.projects n with
  | none => rfl
  | some q => exact setFirstRevision_map_name ps n q.revision

lemma foldl_fixStep_map_name (b : LockFile) (l : List String) :
    ∀ ps : List Project,
      (l.foldl (fixStep b) ps).map Project.name = ps.map Project.name := by
  induction l with
  | nil => intro ps; rfl
  | cons n l ih =>
    intro ps
    rw [List.foldl_cons, ih (fixStep b ps n), fixStep_map_name]

/-- With unique names, the map lookup and the entry search agree. -/
lemma depsMap_eq_findProj_of_nodup (ps : List Project)
    (h : (ps.map Project.name).Nodup) (n : String) :
    depsMap ps n = (findProj ps n).map Project.revision := by
  induction ps with
  | nil => rfl
  | cons p ps ih =>
    have h2 : (p.name :: ps.map Project.name).Nodup := by simpa using h
    have hp : p.name ∉ ps.map Project.name := (List.nodup_cons.mp h2).1
    have hps : (ps.map Project.name).Nodup := (List.nodup_cons.mp h2).2
    rw [depsMap_cons]
    by_cases hn : n = p.name
    · have hnone : depsMap ps n = none := (depsMap_eq_none_iff ps n).mpr (hn ▸ hp)
      have hb : (p.name == n) = true := by simpa using hn.symm
      rw [hnone]
      simp [hn, findProj, List.find?_cons, hb]
    · have hb : (p.name == n) = false := by
        simpa using fun hh : p.name = n => hn hh.symm
      have hfind : findProj (p :: ps) n = findProj ps n := by
        simp [findProj, List.find?_cons, hb]
      rw [hfind, ← ih hps]
      cases hd : depsMap ps n with
      | none => simp [hn]
      | some r => rfl

/-- After a fix pass over documents with unique names, no revision mismatch
against the reference document remains. -/
lemma isMismatch_fixPass (a b : LockFile) (o : List String)
    (ha : (a.projects.map Project.name).Nodup)
    (hb : (b.projects.map Project.name).Nodup)
    (ho : IsIterOrder a o) (n : String) :
    isMismatch (fixPass a b o) b n = false := by
  have hAproj := fixPass_projects a b o
  have hlnd : (mismatchNames a b o).Nodup := ho.1.filter _
  have hnames : (fixPass a b o).projects.map Project.name = a.projects.map Project.name := by
    rw [hAproj]
    exact foldl_fixStep_map_name b (mismatchNames a b o) a.projects
  cases hbd : depsMap b.projects n with
  | none =>
    cases had : depsMap (fixPass a b o).projects n <;> simp [isMismatch, had, hbd]
  | some brev =>
    cases had : depsMap a.projects n with
    | none =>
      have hAnone : depsMap (fixPass a b o).projects n = none := by
        rw [depsMap_eq_none_iff, hnames, ← depsMap_eq_none_iff]
        exact had
      simp [isMismatch, hAnone, hbd]
    | some arev =>
      have hmemA : n ∈ a.projects.map Project.name := by
        rw [← depsMap_isSome_iff, had]
        rfl
      have hAnd : ((fixPass a b o).projects.map Project.name).Nodup := by
        rw [hnames]
        exact ha
      have hdm : depsMap (fixPass a b o).projects n
          = (findProj (fixPass a b o).projects n).map Project.revision :=
        depsMap_eq_findProj_of_nodup _ hAnd n
      have hfold : findProj (fixPass a b o).projects n
          = if n ∈ mismatchNames a b o then
              match findProj b.projects n with
              | some theirProj =>
                  (findProj a.projects n).map (fun p => { p with revision := theirProj.revision })
              | none => findProj a.projects n
            else findProj a.projects n := by
        rw [hAproj]
        exact findProj_foldl_fixStep b (mismatchNames a b o) a.projects n hlnd
      have hda : depsMap a.projects n = (findProj a.projects n).map Project.revision :=
        depsMap_eq_findProj_of_nodup a.projects ha n
      obtain ⟨ap, hap⟩ : ∃ p, findProj a.projects n = some p := by
        cases hf : findProj a.projects n with
        | none => rw [hf] at hda; rw [hda] at had; exact Option.noConfusion had
        | some p => exact ⟨p, rfl⟩
      have harev : ap.revision = arev := by
        rw [hap] at hda
        rw [hda] at had
        simpa using had
      by_cases hmm : isMismatch a b n = true
      · have hnl : n ∈ mismatchNames a b o :=
          List.mem_filter.mpr ⟨ho.2.2 n hmemA, hmm⟩
        have hmemB : n ∈ b.projects.map Project.name := by
          rw [← depsMap_isSome_iff, hbd]
          rfl
        obtain ⟨q, hq⟩ : ∃ p, findProj b.projects n = some p := by
          cases hf : findProj b.projects n with
          | none =>
            rw [← findProj_isSome_iff, hf] at hmemB
            exact Bool.noConfusion hmemB
          | some p => exact ⟨p, rfl⟩
        have hqrev : q.revision = brev := by
          have hh := depsMap_eq_findProj_of_nodup b.projects hb n
          rw [hbd, hq] at hh
          simpa using hh.symm
        rw [if_pos hnl, hq, hap] at hfold
        rw [hfold] at hdm
        simp only [Option.map_some] at hdm
        simp [isMismatch, hdm, hbd, hqrev]
      · have hnl : n ∉ mismatchNames a b o := by
          intro hc
          exact hmm (List.mem_filter.mp hc).2
        rw [if_neg hnl] at hfold
        rw [hfold, hap] at hdm
        have heq : arev = brev := by
          have := hmm
          simp [isMismatch, had, hbd] at this
          exact this
        simp [isMismatch, hdm, hbd, harev, heq]

/-! ### Iteration orders -/

lemma iterOrder_perm (a : LockFile) {o1 o2 : List String}
    (h1 : IsIterOrder a o1) (h2 : IsIterOrder a o2) : o1.Perm o2 := by
  rw [List.perm_ext_iff_of_nodup h1.1 h2.1]
  intro n
  constructor
  · intro h
    exact h2.2.2 n (h1.2.1 n h)
  · intro h
    exact h1.2.2 n (h2.2.1 n h)

lemma iterOrder_perm_dedup (a : LockFile) {o : List String} (ho : IsIterOrder a o) :
    o.Perm (a.projects.map Project.name).dedup := by
  rw [List.perm_ext_iff_of_nodup ho.1 ((a.projects.map Project.name).nodup_dedup)]
  intro n
  rw [List.mem_dedup]
  exact ⟨fun h => ho.2.1 n h, fun h => ho.2.2 n h⟩

/-- A counting wrapper around an arbitrary callback: behaves like the callback
and additionally counts its invocations. -/
def countingCb {σ : Type} (f : Callback σ) : Callback (σ × Nat) :=
  fun n aproj bproj ps s =>
    ((f n aproj bproj ps s.1).1, (f n aproj bproj ps s.1).2, s.2 + 1)

lemma foldl_countingCb {σ : Type} (b : LockFile) (f : Callback σ) (l : List String) :
    ∀ (ps : List Project) (s : σ) (k : Nat),
      ((l.foldl (fun acc n => countingCb f n (findProj acc.1 n) (findProj b.projects n)
          acc.1 acc.2) (ps, (s, k))).2).2 = k + l.length := by
  induction l with
  | nil => intro ps s k; simp
  | cons n l ih =>
    intro ps s k
    rw [List.foldl_cons]
    show ((l.foldl _ (_, (_, k + 1))).2).2 = _
    rw [ih]
    simp [Nat.add_assoc, Nat.add_comm 1 l.length]

/-! ### Concrete documents for witnesses and counterexamples -/

def mkProj (n r : String) : Project :=
  { branch := "", name := n, packages := [], revision := r, version := "" }

def meta0 : SolveMeta := ⟨"", 0, "", "", 0⟩

def mkLock (ps : List Project) : LockFile := { projects := ps, solveMeta := meta0 }

/-- Local document: alpha pinned at r1, beta at r2, delta at r5. -/
def aEx : LockFile := mkLock [mkProj "alpha" "r1", mkProj "beta" "r2", mkProj "delta" "r5"]

/-- Reference document: alpha agrees, beta diverges (r3), gamma only here. -/
def bEx : LockFile := mkLock [mkProj "alpha" "r1", mkProj "beta" "r3", mkProj "gamma" "r4"]

def oEx : List String := ["alpha", "beta", "delta"]

/-- Local document for the order counterexample: two entries, both
mismatching against `bC2`. -/
def aC2 : LockFile := mkLock [mkProj "alpha" "r1", mkProj "beta" "r2"]

def bC2 : LockFile := mkLock [mkProj "alpha" "x1", mkProj "beta" "x2"]

/-- Driver environment for the post-fix-verification scenario: the resolver
leaves the lock file still mismatching the reference. -/
def envEx : DriverEnv :=
  { readLocal := fun _ => some aEx
    refLock := bEx
    orders := fun _ => oEx
    persistOk := true
    ensureOk := true
    localPathLabel := "github.com/example/local"
    projName := "github.com/example/ref" }

/-! ### Driver loop bounds -/

lemma driverLoop_false (env : DriverEnv) (fuel k : Nat) (acc : DriverRun) :
    ∃ r, driverLoop env (fuel + 1) false k acc = some r
      ∧ r.diffCycles ≤ acc.diffCycles + 1
      ∧ r.persistCalls = acc.persistCalls
      ∧ r.ensureCalls = acc.ensureCalls := by
  cases hre : env.readLocal k with
  | none =>
    refine ⟨{ acc with exitCode := 1 }, ?_, ?_, rfl, rfl⟩
    · simp [driverLoop, hre]
    · simp
  | some myLock =>
    simp only [driverLoop, hre, Bool.false_eq_true, if_false]
    split
    · exact ⟨_, rfl, by simp, by simp, by simp⟩
    · exact ⟨_, rfl, by simp, by simp, by simp⟩

lemma driverLoop_true (env : DriverEnv) (k : Nat) (acc : DriverRun) :
    ∃ r, driverLoop env 2 true k acc = some r
      ∧ r.diffCycles ≤ acc.diffCycles + 2
      ∧ r.persistCalls ≤ acc.persistCalls + 1
      ∧ r.ensureCalls ≤ acc.ensureCalls + 1 := by
  cases hre : env.readLocal k with
  | none =>
    refine ⟨{ acc with exitCode := 1 }, ?_, ?_, ?_, ?_⟩
    · simp [driverLoop, hre]
    · simp
    · simp
    · simp
  | some myLock =>
    simp only [show (2 : Nat) = 1 + 1 from rfl, driverLoop, hre, if_true]
    split
    · cases hp : env.persistOk with
      | false => simp [hp]
      | true =>
        simp only [hp, if_true]
        cases he : env.ensureOk with
        | false => simp [he]
        | true =>
          simp only [he, if_true]
          obtain ⟨r, hr, h1, h2, h3⟩ := driverLoop_false env 0 (k + 1)
            { acc with diffCycles := acc.diffCycles + 1,
                       persistCalls := acc.persistCalls + 1,
                       ensureCalls := acc.ensureCalls + 1 }
          refine ⟨r, hr, ?_, ?_, ?_⟩
          · simpa [Nat.add_assoc] using h1
          · simp [h2]
          · simp [h3]
    · exact ⟨_, rfl, by simp, by simp, by simp⟩

lemma isMismatch_true_mem (a b : LockFile) {n : String} (h : isMismatch a b n = true) :
    n ∈ a.projects.map Project.name ∧ n ∈ b.projects.map Project.name := by
  cases ha : depsMap a.projects n with
  | none => simp [isMismatch, ha] at h
  | some ra =>
    cases hb : depsMap b.projects n with
    | none => simp [isMismatch, ha, hb] at h
    | some rb =>
      constructor
      · rw [← depsMap_isSome_iff, ha]; rfl
      · rw [← depsMap_isSome_iff, hb]; rfl

lemma mem_mismatchNames (a b : LockFile) {o : List String} (ho : IsIterOrder a o)
    (n : String) :
    n ∈ mismatchNames a b o ↔ isMismatch a b n = true := by
  rw [mismatchNames, List.mem_filter]
  exact ⟨fun h => h.2, fun h => ⟨ho.2.2 n (isMismatch_true_mem a b h).1, h⟩⟩

lemma invocationLog_names (a b : LockFile) (o : List String) :
    (invocationLog a b o).map (fun t => t.1) = mismatchNames a b o := by
  rw [invocationLog_eq, List.map_map]
  exact List.map_id _

/-! ## Claim theorems -/

/-- C1: `diffProjectDeps` counts a mismatch exactly once for each package
name that exists in both name-to-revision maps with differing revisions; a
name present in only one of the two documents is never counted and never
produces a callback invocation. -/
theorem c1_diff_counts_common_mismatches (a b : LockFile) (o : List String)
    (ho : IsIterOrder a o) :
    diffProjectDeps a b o
        = ((a.projects.map Project.name).dedup.filter (fun n => isMismatch a b n)).length
      ∧ (∀ n, isMismatch a b n = true
          ↔ ∃ ra rb, depsMap a.projects n = some ra ∧ depsMap b.projects n = some rb
              ∧ ra ≠ rb)
      ∧ (∀ n, n ∈ (invocationLog a b o).map (fun t => t.1)
          ↔ isMismatch a b n = true) := by
  refine ⟨?_, ?_, ?_⟩
  · rw [diffProjectDeps_eq, mismatchNames]
    exact ((iterOrder_perm_dedup a ho).filter _).length_eq
  · intro n
    cases ha : depsMap a.projects n <;> cases hb : depsMap b.projects n <;>
      simp [isMismatch, ha, hb]
  · intro n
    rw [invocationLog_names]
    exact mem_mismatchNames a b ho n

/-- Witness for C1 at concrete documents: one common name (beta) with
divergent revisions, one agreeing common name (alpha), and one name on each
side only (delta, gamma). -/
theorem c1_witness :
    diffProjectDeps aEx bEx oEx
      = ((aEx.projects.map Project.name).dedup.filter
          (fun n => isMismatch aEx bEx n)).length :=
  (c1_diff_counts_common_mismatches aEx bEx oEx (by decide)).1

/-- C2 counterexample: the Go code ranges over the map `adeps`, not over
`a.Projects`, so two legitimate map iteration orders of the same pair of
documents yield different callback sequences; the sequence is therefore not
determined by the inputs, refuting the claimed document-order visiting. -/
theorem c2_counterexample :
    IsIterOrder aC2 ["alpha", "beta"] ∧ IsIterOrder aC2 ["beta", "alpha"]
      ∧ invocationLog aC2 bC2 ["alpha", "beta"]
          ≠ invocationLog aC2 bC2 ["beta", "alpha"] := by
  refine ⟨by decide, by decide, by decide⟩

/-- C2 amended: `diffProjectDeps` visits each key of the local map exactly
once in an unspecified Go map iteration order; the mismatch count and the
multiset of callback invocations are independent of that order, but the
sequence of invocations is not fixed by the inputs. -/
theorem c2_amended_order_independent_count (a b : LockFile) (o1 o2 : List String)
    (h1 : IsIterOrder a o1) (h2 : IsIterOrder a o2) :
    diffProjectDeps a b o1 = diffProjectDeps a b o2
      ∧ (invocationLog a b o1).Perm (invocationLog a b o2) := by
  have hperm : o1.Perm o2 := iterOrder_perm a h1 h2
  constructor
  · rw [diffProjectDeps_eq, diffProjectDeps_eq]
    exact ((hperm.filter _).length_eq)
  · rw [invocationLog_eq, invocationLog_eq]
    exact (hperm.filter _).map _

theorem c2_amended_witness :
    diffProjectDeps aC2 bC2 ["alpha", "beta"] = diffProjectDeps aC2 bC2 ["beta", "alpha"] :=
  (c2_amended_order_independent_count aC2 bC2 ["alpha", "beta"] ["beta", "alpha"]
    (by decide) (by decide)).1

/-- C3: if names are unique within each document, then after one fix-mode
pass (callback `myProj.Revision = theirProj.Revision` on every mismatch) a
re-diff of the mutated local document against the same reference returns 0,
for any iteration order of the second pass. -/
theorem c3_fix_then_rediff_clean (a b : LockFile) (o o2 : List String)
    (ha : (a.projects.map Project.name).Nodup)
    (hb : (b.projects.map Project.name).Nodup)
    (ho : IsIterOrder a o) :
    diffProjectDeps (fixPass a b o) b o2 = 0 := by
  rw [diffProjectDeps_eq]
  have hnil : mismatchNames (fixPass a b o) b o2 = [] := by
    rw [mismatchNames]
    rw [List.filter_eq_nil_iff]
    intro n _
    rw [isMismatch_fixPass a b o ha hb ho n]
    exact Bool.false_ne_true
  rw [hnil]
  rfl

theorem c3_witness : diffProjectDeps (fixPass aEx bEx oEx) bEx oEx = 0 :=
  c3_fix_then_rediff_clean aEx bEx oEx oEx (by decide) (by decide) (by decide)

/-- C6: the callback is invoked exactly `diffProjectDeps a b o` times (the
count of the callback-free run), and the returned count does not depend on
the callback argument. -/
theorem c6_callback_invocation_count (a b : LockFile) (o : List String) (σ : Type)
    (f : Callback σ) (s : σ) :
    ((runDiff a b o (some (countingCb f)) (s, 0)).2.2).2 = diffProjectDeps a b o
      ∧ (runDiff a b o (some f) s).1 = diffProjectDeps a b o := by
  constructor
  · rw [runDiff_some_eq]
    show ((List.foldl _ (a.projects, (s, 0)) (mismatchNames a b o)).2).2 = _
    rw [foldl_countingCb, diffProjectDeps_eq]
    simp
  · exact runDiff_count a b o (some f) s

/-- C7: diffing a document against itself yields zero mismatches and no
callback invocation, for any callback argument and any iteration order. -/
theorem c7_diff_self_zero (a : LockFile) (o : List String) (σ : Type)
    (ondiff : Option (Callback σ)) (s : σ) :
    runDiff a a o ondiff s = (0, a.projects, s) := by
  have hnil : mismatchNames a a o = [] := by
    rw [mismatchNames, List.filter_eq_nil_iff]
    intro n _
    cases h : depsMap a.projects n <;> simp [isMismatch, h]
  cases ondiff with
  | none => rw [runDiff_none_eq, hnil]; rfl
  | some f => rw [runDiff_some_eq, hnil]; rfl

/-- A one-file file system holding the pre-fix lock file. -/
def fs0 : String → Option String :=
  fun p => if p = "Gopkg.lock" then some "old" else none

lemma ne_append_new (fpath : String) : fpath ≠ fpath ++ ".new" := by
  intro h
  have hlen := congrArg String.length h
  rw [String.length_append] at hlen
  have h4 : (".new" : String).length = 4 := rfl
  omega

/-- C4: `writeTomlFile` writes the serialized document to the sibling path
`fpath + ".new"` and renames it over the original; if the create, encode, or
close step fails before the rename, it deletes the temporary file, returns an
error, and the original path still maps to its previous content. -/
theorem c4_persist_atomic (fs : String → Option String) (fpath body : String)
    (fl : WriteFailures) (hclean : fs (fpath ++ ".new") = none) :
    ((fl.createFails = true ∨ fl.encodeFails = true ∨ fl.closeFails = true) →
      (writeTomlFile fs fpath body fl).1.isSome = true
        ∧ (writeTomlFile fs fpath body fl).2 fpath = fs fpath
        ∧ (writeTomlFile fs fpath body fl).2 (fpath ++ ".new") = none)
    ∧ (fl = ⟨false, false, false, false⟩ →
      (writeTomlFile fs fpath body fl).1 = none
        ∧ (writeTomlFile fs fpath body fl).2 fpath = some (tomlHeader ++ body)
        ∧ (writeTomlFile fs fpath body fl).2 (fpath ++ ".new") = none) := by
  have hne : fpath ≠ fpath ++ ".new" := ne_append_new fpath
  have hne2 : fpath ++ ".new" ≠ fpath := fun h => hne h.symm
  obtain ⟨c, e, cl, rn⟩ := fl
  constructor
  · intro h
    cases c
    · cases e
      · cases cl
        · simp at h
        · simp [writeTomlFile, hne, hne2]
      · simp [writeTomlFile, hne, hne2]
    · simp [writeTomlFile, hclean]
  · intro h
    simp only [WriteFailures.mk.injEq] at h
    obtain ⟨hc, he, hcl, hrn⟩ := h
    subst hc; subst he; subst hcl; subst hrn
    simp [writeTomlFile, hne, hne2]

/-- Witness for C4: a one-file system; an encode failure leaves the original
unchanged, the failure-free run replaces it with the header plus body. -/
theorem c4_witness :
    (writeTomlFile fs0 "Gopkg.lock" "body" ⟨false, true, false, false⟩).2 "Gopkg.lock"
        = fs0 "Gopkg.lock"
      ∧ (writeTomlFile fs0 "Gopkg.lock" "body" ⟨false, false, false, false⟩).2 "Gopkg.lock"
        = some (tomlHeader ++ "body") :=
  ⟨((c4_persist_atomic fs0 "Gopkg.lock" "body" ⟨false, true, false, false⟩ (by decide)).1
      (Or.inr (Or.inl rfl))).2.1,
   ((c4_persist_atomic fs0 "Gopkg.lock" "body" ⟨false, false, false, false⟩ (by decide)).2
      rfl).2.1⟩

/-- C5: every invocation of the driver terminates within fuel 2, with at most
two diff cycles, at most one persist, and at most one resolver run — the fix
flag is cleared before the single loop-back. -/
theorem c5_at_most_two_diff_cycles (env : DriverEnv) (fix0 : Bool) :
    ∃ r, runMain env fix0 = some r
      ∧ r.diffCycles ≤ 2 ∧ r.persistCalls ≤ 1 ∧ r.ensureCalls ≤ 1 := by
  cases fix0 with
  | false =>
    obtain ⟨r, hr, h1, h2, h3⟩ := driverLoop_false env 1 0 initRun
    simp only [initRun] at h1 h2 h3
    refine ⟨r, ?_, ?_, ?_, ?_⟩
    · rw [runMain]; exact hr
    · omega
    · omega
    · omega
  | true =>
    obtain ⟨r, hr, h1, h2, h3⟩ := driverLoop_true env 0 initRun
    simp only [initRun] at h1 h2 h3
    refine ⟨r, ?_, ?_, ?_, ?_⟩
    · rw [runMain]; exact hr
    · omega
    · omega
    · omega

/-- C8: in report mode, the output is empty when the mismatch count is zero,
and otherwise consists of the two header lines exactly once followed by one
pair of lines `- name oldRevision` / `+ name newRevision` per mismatch. -/
theorem c8_report_output_format (a b : LockFile) (o : List String) (lp pn : String) :
    reportOutput a b o lp pn
      = if diffProjectDeps a b o = 0 then []
        else ["--- " ++ lp, "+++ " ++ pn]
            ++ (mismatchNames a b o).flatMap (fun n =>
                ["- " ++ n ++ " " ++ revStr (findProj a.projects n),
                 "+ " ++ n ++ " " ++ revStr (findProj b.projects n)]) := by
  rw [reportOutput_eq]
  rfl

/-- C9: the revision compared for a name is that of the last entry bearing
the name (the map is built by overwriting in document order), while the entry
handed to the callback — hence the entry mutated in fix mode — is the first
entry bearing the name, in both documents. -/
theorem c9_compare_last_entry_callback_first_entry (a b : LockFile) (o : List String) :
    (∀ n, isMismatch a b n = true
        ↔ ∃ pa pb, (a.projects.filter (fun p => p.name == n)).getLast? = some pa
            ∧ (b.projects.filter (fun p => p.name == n)).getLast? = some pb
            ∧ pa.revision ≠ pb.revision)
      ∧ invocationLog a b o
          = (mismatchNames a b o).map (fun n =>
              (n, (a.projects.filter (fun p => p.name == n)).head?,
                  (b.projects.filter (fun p => p.name == n)).head?)) := by
  constructor
  · intro n
    rw [isMismatch, depsMap_eq_getLast a.projects n, depsMap_eq_getLast b.projects n]
    cases ha : (a.projects.filter (fun p => p.name == n)).getLast? <;>
      cases hb : (b.projects.filter (fun p => p.name == n)).getLast? <;> simp
  · rw [invocationLog_eq]
    have hfun : (fun n => (n, findProj a.projects n, findProj b.projects n))
        = (fun n => (n, (a.projects.filter (fun p => p.name == n)).head?,
            (b.projects.filter (fun p => p.name == n)).head?)) := by
      funext n
      rw [findProj_eq_head, findProj_eq_head]
    rw [hfun]

/-- C10: when the post-fix verification diff still finds mismatches (the fix
flag having been cleared), the driver reports them in report format and exits
with status 1 after exactly one persist and one resolver run. -/
theorem c10_post_fix_report_exit1 (env : DriverEnv) (L0 L1 : LockFile)
    (h0 : env.readLocal 0 = some L0)
    (h1 : env.readLocal 1 = some L1)
    (hd0 : 0 < diffProjectDeps L0 env.refLock (env.orders 0))
    (hp : env.persistOk = true)
    (he : env.ensureOk = true)
    (hd1 : 0 < diffProjectDeps L1 env.refLock (env.orders 1)) :
    runMain env true
      = some { exitCode := 1,
               output := reportOutput L1 env.refLock (env.orders 1)
                 env.localPathLabel env.projName,
               diffCycles := 2, persistCalls := 1, ensureCalls := 1 } := by
  have hc0 : (runDiff L0 env.refLock (env.orders 0) (some fixCb) ()).1 > 0 := by
    rw [runDiff_count]
    exact hd0
  have hc1 : (runDiff L1 env.refLock (env.orders 1)
      (some (reportCb env.localPathLabel env.projName)) (false, [])).1 > 0 := by
    rw [runDiff_count]
    exact hd1
  rw [runMain]
  simp [driverLoop, h0, h1, hc0, hc1, hp, he, initRun, reportOutput]

/-- Witness for C10: the resolver leaves the local document still
mismatching, so the second cycle reports and exits 1. -/
theorem c10_witness :
    runMain envEx true
      = some { exitCode := 1,
               output := reportOutput aEx bEx oEx "github.com/example/local"
                 "github.com/example/ref",
               diffCycles := 2, persistCalls := 1, ensureCalls := 1 } :=
  c10_post_fix_report_exit1 envEx aEx aEx rfl rfl (by decide) rfl rfl (by decide)

end Depcheck
